import Mathlib

/-
Shallow embedding of the run-length codec core of src/jRLE.cpp and src/jRLE.h
(Trimatix/cpp-run-length-encoder).

Strings are modelled as lists of characters (std::string -> List Char,
std::vector<std::string> -> List (List Char)).  C++ exceptions of the core
(std::invalid_argument from the scanner, std::invalid_argument from std::stoi,
std::length_error from std::string's fill constructor on a negative count,
std::out_of_range from std::string::at, and undefined behaviour of
front()/back() on an empty string) are modelled as an explicit error type
threaded through Except.
-/

/-- Errors of the embedded C++ core. -/
inductive JErr where
  /-- std::invalid_argument thrown by tokenizeEncoded, carrying the offending
  index (jRLE.cpp lines 222-226). -/
  | invalidArg : Nat → JErr
  /-- std::out_of_range thrown by inText.at(i+1) (jRLE.cpp line 176). -/
  | outOfRange : JErr
  /-- std::invalid_argument thrown by std::stoi on a string with no leading
  numeral (jRLE.cpp lines 332, 338). -/
  | stoiInvalid : JErr
  /-- std::length_error thrown by std::string(n, c) when the int n is negative
  and converts to an enormous size_t. -/
  | lengthError : JErr
  /-- Undefined behaviour: front()/back() on an empty token. -/
  | emptyToken : JErr
  deriving DecidableEq, Repr

deriving instance DecidableEq for Except

/-- jRLE.cpp lines 116-142, tokenizeUnencoded's scan loop.  The first argument
is the slice from currentSeqStart up to (excluding) the current character; the
second is the rest of the input starting at the current character.  A token is
pushed when the current character is the last one or differs from the next. -/
def scanRuns : List Char → List Char → List (List Char)
  | _, [] => []
  | pending, [c] => [pending ++ [c]]
  | pending, c :: c2 :: rest =>
    if c = c2 then scanRuns (pending ++ [c]) (c2 :: rest)
    else (pending ++ [c]) :: scanRuns [] (c2 :: rest)

/-- jRLE.cpp lines 116-142.  The early return for the empty string coincides
with scanRuns [] []. -/
def tokenizeUnencoded (inText : List Char) : List (List Char) :=
  scanRuns [] inText

/-- jRLE.cpp lines 247-253: left fold appending each token to the output. -/
def vectorConcatenate (inVect : List (List Char)) : List Char :=
  inVect.foldl (fun acc t => acc ++ t) []

/-- jRLE.cpp lines 152-238, tokenizeEncoded's scan loop.  `i` is the current
index (used only in the invalid_argument message), `st` is `none` when
longSeqStart = -1 and `some pending` when longSeqStart >= 0 with `pending` the
slice from longSeqStart up to (excluding) the current character. -/
def scanEnc : List Char → Nat → Option (List Char) → Except JErr (List (List Char))
  | [], _, _ => .ok []
  | c :: rest, i, some pending =>
    if c.isDigit then
      -- digits inside a long sequence are accumulated silently
      scanEnc rest (i + 1) (some (pending ++ [c]))
    else if c = '#' then
      match rest with
      | [] =>
        -- inText.at(i+1) with i+1 == length() throws std::out_of_range
        .error .outOfRange
      | c2 :: rest2 =>
        if c2 = '#' then
          -- lines 176-186: token spans longSeqStart through the second '#'
          (fun ts => if pending ++ ['#', '#'] = ['\n'] then ts
                     else (pending ++ ['#', '#']) :: ts) <$>
            scanEnc rest2 (i + 2) (some [])
        else
          -- lines 188-197: token spans longSeqStart up to (excluding) this '#'
          (fun ts => if pending = ['\n'] then ts else pending :: ts) <$>
            scanEnc (c2 :: rest2) (i + 1) (some [])
    else
      -- lines 199-207: token spans longSeqStart through the current character
      (fun ts => if pending ++ [c] = ['\n'] then ts
                 else (pending ++ [c]) :: ts) <$>
        scanEnc rest (i + 1) none
  | c :: rest, i, none =>
    if c = '#' then
      -- line 217-218: start a new long sequence just after the marker
      scanEnc rest (i + 1) (some [])
    else if ¬ c.isDigit then
      -- lines 219-226: error unless the char is '\n' or sits at the last index
      if c ≠ '\n' ∧ rest ≠ [] then .error (.invalidArg i)
      else scanEnc rest (i + 1) none
    else
      -- lines 228-233: two-character token inText.substr(i, 2)
      if (c :: rest).take 2 = ['\n'] then scanEnc rest (i + 1) none
      else
        match rest with
        | [] => (fun ts => [c] :: ts) <$> scanEnc ([] : List Char) (i + 1) none
        | c2 :: rest2 => (fun ts => [c, c2] :: ts) <$> scanEnc rest2 (i + 2) none
  termination_by structural cs _ _ => cs

/-- jRLE.cpp lines 152-238.  The early return for the empty string coincides
with scanEnc [] 0 none. -/
def tokenizeEncoded (inText : List Char) : Except JErr (List (List Char)) :=
  scanEnc inText 0 none

/-- jRLE.cpp lines 276-295, the body of encodeTokens' loop for one token.
`escapeC` is the value of `i > 0 && isdigit(dTokens.at(i-1).front())`. -/
def encodeOne (escapeC : Bool) (t : List Char) : List Char :=
  let lead : List Char := if t.length > 9 ∨ escapeC then ['#'] else []
  let core := lead ++ (Nat.repr t.length).data ++ [t.headD ' ']
  if t.headD ' ' = '#' then core ++ ['#'] else core

/-- jRLE.cpp lines 276-296: the loop, threading the previous token's front
character (none at i = 0). -/
def encodeTokensGo : Option Char → List (List Char) → List (List Char)
  | _, [] => []
  | prev, t :: rest =>
    encodeOne (match prev with | some p => p.isDigit | none => false) t ::
      encodeTokensGo (some (t.headD ' ')) rest

/-- jRLE.cpp lines 263-299.  The early return for the empty vector coincides
with encodeTokensGo none []. -/
def encodeTokens (dTokens : List (List Char)) : List (List Char) :=
  encodeTokensGo none dTokens

/-- Predicate used by stoi's leading-whitespace skip (C isspace, "C" locale). -/
def isSpaceChar (c : Char) : Bool := c = ' ' ∨ (9 ≤ c.toNat ∧ c.toNat ≤ 13)

/-- std::stoi: skip leading whitespace, read an optional sign, then a nonempty
run of decimal digits; throw std::invalid_argument when no digits are found.
Integer overflow (std::out_of_range) is not modelled; the counts in scope are
small. -/
def stoi (s : List Char) : Except JErr Int :=
  let s1 := s.dropWhile isSpaceChar
  let signAndRest : Int × List Char :=
    match s1 with
    | '-' :: r => (-1, r)
    | '+' :: r => (1, r)
    | _ => (1, s1)
  let ds := signAndRest.2.takeWhile Char.isDigit
  if ds.isEmpty then .error .stoiInvalid
  else .ok (signAndRest.1 *
    ((ds.foldl (fun a c => a * 10 + (c.toNat - 48)) 0 : Nat) : Int))

/-- std::string(n, c) with an int count: a negative count converts to an
enormous size_t and the constructor throws std::length_error. -/
def cppStringFill (n : Int) (c : Char) : Except JErr (List Char) :=
  if n < 0 then .error .lengthError else .ok (List.replicate n.toNat c)

/-- jRLE.cpp lines 318-341, the body of decodeTokens' loop for one token. -/
def decodeTok (t : List Char) : Except JErr (List Char) :=
  match t with
  | [] => .error .emptyToken
  | _ =>
    if t.length = 2 then
      -- line 324: std::string(currentToken.front() - '0', currentToken.back())
      cppStringFill (((t.headD ' ').toNat : Int) - (('0'.toNat : Nat) : Int))
        (t.getLastD ' ')
    else if t.getLastD ' ' = '#' then
      -- lines 332-333: std::string(stoi(substr(0, length-2)), '#')
      do cppStringFill (← stoi (t.take (t.length - 2))) '#'
    else
      -- lines 338-339: std::string(stoi(substr(0, length-1)), back())
      do cppStringFill (← stoi (t.take (t.length - 1))) (t.getLastD ' ')

/-- jRLE.cpp lines 309-344: decode each token in order; an exception aborts the
whole operation. -/
def decodeTokens (eTokens : List (List Char)) : Except JErr (List (List Char)) :=
  eTokens.mapM decodeTok

/-- The encode pipeline of jRLE.h lines 5-11 and main (jRLE.cpp lines 380-382):
vectorConcatenate(encodeTokens(tokenizeUnencoded(text))). -/
def encodePipeline (s : List Char) : List Char :=
  vectorConcatenate (encodeTokens (tokenizeUnencoded s))

/-- The decode pipeline of main (jRLE.cpp lines 375-377):
vectorConcatenate(decodeTokens(tokenizeEncoded(text))). -/
def decodePipeline (s : List Char) : Except JErr (List Char) := do
  let toks ← tokenizeEncoded s
  let ds ← decodeTokens toks
  pure (vectorConcatenate ds)

/-
Property-side helper predicates and the statements settling the claims.
-/

/-- A run in the sense of the data model: a nonempty string consisting of one
repeated character. -/
def isUniformRun (t : List Char) : Bool :=
  !t.isEmpty && t.all (fun c => c == t.headD ' ')

/-- No two adjacent runs in the sequence share the same (head) character. -/
def adjacentHeadsDiffer : List (List Char) → Bool
  | [] => true
  | [_] => true
  | a :: b :: rest => (a.headD ' ' != b.headD ' ') && adjacentHeadsDiffer (b :: rest)

/-- Folding append over a list of tokens is the flattening of that list. -/
theorem vectorConcatenate_eq_flatten (l : List (List Char)) :
    vectorConcatenate l = l.flatten := by
  have h : ∀ (l : List (List Char)) (init : List Char),
      l.foldl (fun acc t => acc ++ t) init = init ++ l.flatten := by
    intro l
    induction l with
    | nil => intro init; simp
    | cons t r ih => intro init; simp [List.foldl, ih, List.append_assoc]
  simpa [vectorConcatenate] using h l []

/-- The runs produced by the scan of tokenizeUnencoded flatten back to the
pending slice followed by the unscanned input. -/
theorem scanRuns_flatten (rest : List Char) :
    ∀ (c : Char) (p : List Char), (scanRuns p (c :: rest)).flatten = p ++ c :: rest := by
  induction rest with
  | nil => intro c p; simp [scanRuns]
  | cons c2 r ih =>
    intro c p
    by_cases hc : c = c2
    · subst hc
      rw [show scanRuns p (c :: c :: r) = scanRuns (p ++ [c]) (c :: r) by
        simp [scanRuns]]
      rw [ih c (p ++ [c])]
      simp
    · rw [show scanRuns p (c :: c2 :: r) = (p ++ [c]) :: scanRuns [] (c2 :: r) by
        simp [scanRuns, hc]]
      rw [List.flatten_cons, ih c2 []]
      simp

/-- C6: for every input string, the runs returned by tokenizeUnencoded,
concatenated in order by vectorConcatenate, reproduce the input string
exactly; the empty string yields the empty sequence of runs. -/
theorem tokenizeUnencoded_concat :
    (∀ s : List Char, vectorConcatenate (tokenizeUnencoded s) = s) ∧
    tokenizeUnencoded [] = [] := by
  constructor
  · intro s
    rw [vectorConcatenate_eq_flatten]
    cases s with
    | nil => rfl
    | cons c rest => exact scanRuns_flatten rest c []
  · rfl

/-- A nonempty all-equal list is a uniform run. -/
theorem isUniformRun_replicate (n : Nat) (c : Char) :
    isUniformRun (List.replicate (n + 1) c) = true := by
  have hh : (List.replicate (n + 1) c).headD ' ' = c := by
    simp [List.replicate_succ]
  simp only [isUniformRun, hh, Bool.and_eq_true, List.all_eq_true]
  constructor
  · simp [List.isEmpty_iff]
  · intro a ha
    simpa using List.eq_of_mem_replicate ha

/-- Invariant of the tokenizeUnencoded scan: all produced runs are uniform and
nonempty, adjacent runs have distinct characters, and the head run consists of
repetitions of the character the scan is currently inside. -/
theorem scanRuns_wellformed (rest : List Char) :
    ∀ (c : Char) (k : Nat),
      (scanRuns (List.replicate k c) (c :: rest)).all isUniformRun = true ∧
      adjacentHeadsDiffer (scanRuns (List.replicate k c) (c :: rest)) = true ∧
      ∃ n, 0 < n ∧
        (scanRuns (List.replicate k c) (c :: rest)).head? =
          some (List.replicate n c) := by
  induction rest with
  | nil =>
    intro c k
    have h1 : scanRuns (List.replicate k c) [c] = [List.replicate (k + 1) c] := by
      simp [scanRuns, List.replicate_succ']
    rw [h1]
    refine ⟨?_, rfl, k + 1, Nat.succ_pos k, rfl⟩
    simp [List.all_eq_true, isUniformRun_replicate]
  | cons c2 r ih =>
    intro c k
    by_cases hc : c = c2
    · subst hc
      have h1 : scanRuns (List.replicate k c) (c :: c :: r) =
          scanRuns (List.replicate (k + 1) c) (c :: r) := by
        simp [scanRuns, List.replicate_succ']
      rw [h1]
      exact ih c (k + 1)
    · have h1 : scanRuns (List.replicate k c) (c :: c2 :: r) =
          List.replicate (k + 1) c :: scanRuns [] (c2 :: r) := by
        simp [scanRuns, hc, List.replicate_succ']
      obtain ⟨hall, hadj, n, hn, hhead⟩ := ih c2 0
      simp only [List.replicate_zero] at hall hadj hhead
      rw [h1]
      obtain ⟨t2, L2, hL⟩ : ∃ t2 L2, scanRuns ([] : List Char) (c2 :: r) = t2 :: L2 := by
        cases hL0 : scanRuns ([] : List Char) (c2 :: r) with
        | nil => rw [hL0] at hhead; simp at hhead
        | cons t2 L2 => exact ⟨t2, L2, rfl⟩
      have ht2 : t2 = List.replicate n c2 := by
        rw [hL] at hhead
        simpa using hhead
      rw [hL]
      rw [hL] at hall hadj
      refine ⟨?_, ?_, k + 1, Nat.succ_pos k, rfl⟩
      · rw [List.all_cons, isUniformRun_replicate k c, hall]
        rfl
      · simp only [adjacentHeadsDiffer, Bool.and_eq_true]
        refine ⟨?_, hadj⟩
        subst ht2
        have hh1 : (List.replicate (k + 1) c).headD ' ' = c := by
          simp [List.replicate_succ]
        have hh2 : (List.replicate n c2).headD ' ' = c2 := by
          cases n with
          | zero => omega
          | succ m => simp [List.replicate_succ]
        rw [hh1, hh2]
        simpa using hc

/-- C7: every run returned by tokenizeUnencoded is a nonempty string of one
repeated character, and no two adjacent runs share the same character. -/
theorem tokenizeUnencoded_runs_wellformed (s : List Char) :
    (tokenizeUnencoded s).all isUniformRun = true ∧
    adjacentHeadsDiffer (tokenizeUnencoded s) = true := by
  cases s with
  | nil => exact ⟨rfl, rfl⟩
  | cons c rest =>
    have h := scanRuns_wellformed rest c 0
    exact ⟨h.1, h.2.1⟩

/-- C1: the claimed round trip decode(encode(T)) == T fails.  For the single
run of ten digit characters, the encoder emits the token #101; scanning it,
the marker opens a long sequence, the three remaining characters are all
digits, and the input ends before any closing character, so the scanner emits
no token at all and the decode of the encode is the empty string. -/
theorem encode_decode_loses_trailing_digit_run :
    encodePipeline (List.replicate 10 '1') = ['#', '1', '0', '1'] ∧
    decodePipeline (encodePipeline (List.replicate 10 '1')) = Except.ok [] ∧
    (Except.ok [] : Except JErr (List Char)) ≠
      Except.ok (List.replicate 10 '1') := by
  refine ⟨by decide, by decide, by decide⟩

/-- C2: tokenizeEncoded does not raise the malformed-encoding error on the
one-character buffer consisting of a bare literal, because the error condition
at jRLE.cpp line 222 additionally requires i < length() - 1; the scan returns
an empty token vector instead. -/
theorem tokenizeEncoded_bare_char_no_error :
    tokenizeEncoded ['a'] = Except.ok [] ∧
    tokenizeEncoded ['a', 'b'] = Except.error (JErr.invalidArg 0) := by
  refine ⟨by decide, by decide⟩

/-- C8: the two-run input of three 1 characters then two a characters encodes
to the tokens 31 and #2a (the second escaped with a leading marker because the
previous run consists of a digit), and decoding the concatenated encoding
recovers the two original runs in order. -/
theorem digit_run_escape_example :
    encodeTokens [List.replicate 3 '1', List.replicate 2 'a'] =
      [['3', '1'], ['#', '2', 'a']] ∧
    tokenizeEncoded
        (vectorConcatenate [['3', '1'], ['#', '2', 'a']]) =
      Except.ok [['3', '1'], ['2', 'a']] ∧
    decodeTokens [['3', '1'], ['2', 'a']] =
      Except.ok [List.replicate 3 '1', List.replicate 2 'a'] := by
  refine ⟨by decide, by decide, by decide⟩

/-- C9: encoding twice and decoding twice does not recover the original.  On
the input of two # characters followed by two 1 characters, the second decode
returns the two # characters only: each decode pass loses the trailing
digit-run content swallowed by an unclosed long sequence. -/
theorem double_encode_decode_failure :
    (decodePipeline
        (encodePipeline (encodePipeline ['#', '#', '1', '1']))).bind
      decodePipeline = Except.ok ['#', '#'] ∧
    (Except.ok ['#', '#'] : Except JErr (List Char)) ≠
      Except.ok ['#', '#', '1', '1'] := by
  refine ⟨by decide, by decide⟩

/-- C3 counterexample: the buffer #10a is well formed (it is the encoding of
the run of ten a characters) and is scanned without error into the single
token 10a, but the concatenation of the returned tokens is 10a, which differs
from the scanned input by the consumed leading escape marker, although the
input ends in no line terminator. -/
theorem tokenizeEncoded_concat_drops_marker :
    encodeTokens [List.replicate 10 'a'] = [['#', '1', '0', 'a']] ∧
    tokenizeEncoded ['#', '1', '0', 'a'] = Except.ok [['1', '0', 'a']] ∧
    vectorConcatenate [['1', '0', 'a']] ≠ ['#', '1', '0', 'a'] ∧
    (['#', '1', '0', 'a'] : List Char).getLastD ' ' ≠ '\n' := by
  refine ⟨by decide, by decide, by decide, by decide⟩

/-- C5 counterexample: decodeTokens does not drop a leading # before numeral
parsing.  On the token #10a it hands the slice #10 to std::stoi, which throws
std::invalid_argument, instead of decoding ten copies of a. -/
theorem decodeTokens_leading_marker_not_dropped :
    decodeTokens [['#', '1', '0', 'a']] = Except.error JErr.stoiInvalid ∧
    decodeTokens [['#', '1', '0', 'a']] ≠
      Except.ok [List.replicate 10 'a'] := by
  refine ⟨by decide, by decide⟩

/-- Replacing a nonempty token by its head repeated to the same length keeps
the head character. -/
theorem replicate_headD (t : List Char) (h : t ≠ []) :
    (List.replicate t.length (t.headD ' ')).headD ' ' = t.headD ' ' := by
  cases t with
  | nil => cases h rfl
  | cons c r => simp [List.replicate_succ]

/-- encodeOne reads only the length and the head of its token. -/
theorem encodeOne_replicate (esc : Bool) (t : List Char) (h : t ≠ []) :
    encodeOne esc (List.replicate t.length (t.headD ' ')) = encodeOne esc t := by
  unfold encodeOne
  rw [List.length_replicate, replicate_headD t h]

/-- The encode loop is unchanged when every token is replaced by its head
repeated to its length. -/
theorem encodeTokensGo_map (ts : List (List Char)) :
    ∀ prev : Option Char, (∀ t ∈ ts, t ≠ []) →
      encodeTokensGo prev
          (ts.map fun t => List.replicate t.length (t.headD ' ')) =
        encodeTokensGo prev ts := by
  induction ts with
  | nil => intro prev _; rfl
  | cons t r ih =>
    intro prev h
    have ht : t ≠ [] := h t (List.mem_cons_self t r)
    simp only [List.map_cons, encodeTokensGo]
    rw [encodeOne_replicate _ t ht, replicate_headD t ht,
      ih (some (t.headD ' ')) (fun x hx => h x (List.mem_cons_of_mem t hx))]

/-- C10: the output of encodeTokens depends only on each element's length and
first character; replacing every element by its first character repeated to
the same length leaves the output unchanged. -/
theorem encodeTokens_depends_on_length_and_head (ts : List (List Char))
    (h : ∀ t ∈ ts, t ≠ []) :
    encodeTokens (ts.map fun t => List.replicate t.length (t.headD ' ')) =
      encodeTokens ts :=
  encodeTokensGo_map ts none h

/-- Witness for C10 at a concrete input: the non-uniform string abc is encoded
exactly as aaa would be. -/
theorem encodeTokens_depends_on_length_and_head_witness :
    encodeTokens
        ([[ 'a', 'b', 'c' ]].map fun t => List.replicate t.length (t.headD ' ')) =
      encodeTokens [['a', 'b', 'c']] :=
  encodeTokens_depends_on_length_and_head [['a', 'b', 'c']] (by decide)

/-- The encode loop preserves the number of tokens. -/
theorem encodeTokensGo_length (ts : List (List Char)) :
    ∀ prev : Option Char, (encodeTokensGo prev ts).length = ts.length := by
  induction ts with
  | nil => intro prev; rfl
  | cons t r ih => intro prev; simp [encodeTokensGo, ih]

/-- encodeOne spelled out as the four concatenated pieces of the format. -/
theorem encodeOne_eq (esc : Bool) (t : List Char) :
    encodeOne esc t =
      (if 9 < t.length ∨ esc = true then ['#'] else []) ++
      (Nat.repr t.length).data ++ [t.headD ' '] ++
      (if t.headD ' ' = '#' then ['#'] else []) := by
  simp only [encodeOne]
  by_cases hh : t.headD ' ' = '#'
  · rw [if_pos hh, if_pos hh]
  · rw [if_neg hh, if_neg hh, List.append_nil]

/-- The token at index i of the encode loop, with the case-C context taken
from prev at index 0 and from the preceding token otherwise. -/
theorem encodeTokensGo_getD (ts : List (List Char)) :
    ∀ (prev : Option Char) (i : Nat), i < ts.length →
      (encodeTokensGo prev ts).getD i [] =
        encodeOne
          (match (if i = 0 then prev
                  else some ((ts.getD (i - 1) []).headD ' ')) with
            | some p => p.isDigit
            | none => false)
          (ts.getD i []) := by
  induction ts with
  | nil => intro prev i hi; simp at hi
  | cons t r ih =>
    intro prev i hi
    cases i with
    | zero => simp [encodeTokensGo]
    | succ j =>
      have hj : j < r.length := by simpa using hi
      simp only [encodeTokensGo, List.getD_cons_succ]
      rw [ih (some (t.headD ' ')) j hj]
      cases j with
      | zero => simp
      | succ m => simp

/-- C4: for a vector of runs, the token at index i carries a leading marker
exactly when the count is at least ten or the previous run's character is a
digit, then the decimal digits of the count, then the character, then a
trailing marker exactly when the character is the marker symbol. -/
theorem encodeTokens_token_shape (ts : List (List Char))
    (_hruns : ts.all isUniformRun = true) (i : Nat) (hi : i < ts.length) :
    (encodeTokens ts).length = ts.length ∧
    (encodeTokens ts).getD i [] =
      (if 10 ≤ (ts.getD i []).length ∨
          (0 < i ∧ ((ts.getD (i - 1) []).headD ' ').isDigit = true)
        then ['#'] else []) ++
      (Nat.repr (ts.getD i []).length).data ++
      [(ts.getD i []).headD ' '] ++
      (if (ts.getD i []).headD ' ' = '#' then ['#'] else []) := by
  constructor
  · exact encodeTokensGo_length ts none
  · rw [show encodeTokens ts = encodeTokensGo none ts from rfl,
      encodeTokensGo_getD ts none i hi, encodeOne_eq]
    cases i with
    | zero => simp [Nat.lt_iff_add_one_le]
    | succ j => simp [Nat.lt_iff_add_one_le]

/-- Witness for C4 at a concrete input: the second token of the encoding of
the runs 111 and aa is #2a. -/
theorem encodeTokens_token_shape_witness :
    (encodeTokens [List.replicate 3 '1', List.replicate 2 'a']).length = 2 ∧
    (encodeTokens [List.replicate 3 '1', List.replicate 2 'a']).getD 1 [] =
      ['#', '2', 'a'] := by
  have h := encodeTokens_token_shape
    [List.replicate 3 '1', List.replicate 2 'a'] (by decide) 1 (by decide)
  exact ⟨h.1, h.2.trans (by decide)⟩

/-- Removal of one leading escape marker, when present. -/
def stripLeadMarker (l : List Char) : List Char :=
  match l with
  | [] => []
  | c :: r => if c = '#' then r else c :: r

/-- Modelled from the spec (section 4.4, RunDecoder): the same dispatch by
token shape as decodeTok, except that, as the spec asserts, any leading escape
marker is dropped before numeral parsing.  The length-2 branch takes the digit
value of the first character, as the spec words it. -/
def decodeTokSpec (t : List Char) : Except JErr (List Char) :=
  match t with
  | [] => .error .emptyToken
  | _ =>
    if t.length = 2 then
      .ok (List.replicate ((t.headD ' ').toNat - '0'.toNat) (t.getLastD ' '))
    else if t.getLastD ' ' = '#' then
      do cppStringFill (← stoi (stripLeadMarker (t.take (t.length - 2)))) '#'
    else
      do cppStringFill (← stoi (stripLeadMarker (t.take (t.length - 1)))) (t.getLastD ' ')

/-- Stripping a leading marker from a list that does not start with one is the
identity. -/
theorem stripLeadMarker_eq_of_head_ne (l : List Char) (h : l.head? ≠ some '#') :
    stripLeadMarker l = l := by
  cases l with
  | nil => rfl
  | cons c r =>
    have hc : c ≠ '#' := by
      intro he
      exact h (by rw [he]; rfl)
    simp only [stripLeadMarker, if_neg hc]

/-- A digit character has code point at least 48. -/
theorem char_digit_toNat_ge {c : Char} (h : c.isDigit = true) : 48 ≤ c.toNat := by
  simp only [Char.isDigit, ge_iff_le, Bool.and_eq_true, decide_eq_true_eq] at h
  exact UInt32.le_toNat_of_le (by norm_num [UInt32.size]) h.1

/-- C5 amended: decodeTok implements exactly the claimed dispatch by shape on
every token that does not begin with a leading marker; on such tokens no
stripping is needed and the source and the spec model agree.  (On a token that
does begin with the marker they disagree: see the counterexample.) -/
theorem decodeTok_matches_spec_without_marker (t : List Char)
    (hne : t ≠ []) (hhead : t.head? ≠ some '#')
    (hd2 : t.length = 2 → (t.headD ' ').isDigit = true) :
    decodeTok t = decodeTokSpec t := by
  cases t with
  | nil => exact absurd rfl hne
  | cons c r =>
    simp only [decodeTok, decodeTokSpec]
    by_cases hlen : (c :: r).length = 2
    · rw [if_pos hlen, if_pos hlen]
      have hdig := hd2 hlen
      have h48 : 48 ≤ c.toNat := char_digit_toNat_ge (by simpa using hdig)
      have h0 : ('0'.toNat : Nat) = 48 := by decide
      show cppStringFill ((c.toNat : Int) - (('0'.toNat : Nat) : Int))
          ((c :: r).getLastD ' ') = _
      unfold cppStringFill
      rw [h0, if_neg (by omega)]
      have hsub : (((c.toNat : Int) - ((48 : Nat) : Int)).toNat : Nat) =
          c.toNat - 48 := by omega
      rw [hsub]
      show _ = Except.ok (List.replicate (c.toNat - '0'.toNat) ((c :: r).getLastD ' '))
      rw [h0]
    · rw [if_neg hlen, if_neg hlen]
      have hstrip : ∀ m : Nat, stripLeadMarker ((c :: r).take m) = (c :: r).take m := by
        intro m
        apply stripLeadMarker_eq_of_head_ne
        cases m with
        | zero => simp
        | succ k =>
          simp only [List.take_succ_cons, List.head?_cons]
          simpa using hhead
      rw [hstrip, hstrip]

/-- Witness for the amended C5 at a concrete input: on the marker-free token
10a the source decoder and the spec dispatch agree. -/
theorem decodeTok_matches_spec_without_marker_witness :
    decodeTok ['1', '0', 'a'] = decodeTokSpec ['1', '0', 'a'] :=
  decodeTok_matches_spec_without_marker ['1', '0', 'a']
    (by decide) (by decide) (by decide)

/-- The slice of input already consumed into the pending long sequence. -/
def statePending : Option (List Char) → List Char
  | none => []
  | some p => p

/-- The tokens are in-order, non-overlapping substrings of the input: the
input consists of the tokens concatenated in order, possibly with single
escape markers or line terminators between and before them, and with
arbitrary unconsumed content after the final token (an unclosed trailing long
sequence or a stray final character). -/
inductive ScanInterleaves : List (List Char) → List Char → Prop where
  | tail (rest : List Char) : ScanInterleaves [] rest
  | gap {toks : List (List Char)} {cs : List Char} (c : Char) :
      c = '#' ∨ c = '\n' → ScanInterleaves toks cs →
      ScanInterleaves toks (c :: cs)
  | tok {toks : List (List Char)} {cs : List Char} (t : List Char) :
      ScanInterleaves toks cs → ScanInterleaves (t :: toks) (t ++ cs)

/-- The marker character is not a digit. -/
theorem hash_not_digit : ('#'.isDigit) = false := rfl

/-- One scan step: a digit inside a long sequence is accumulated. -/
theorem scanEnc_step_digit (c : Char) (rest : List Char) (i : Nat)
    (pending : List Char) (h1 : c.isDigit = true) :
    scanEnc (c :: rest) i (some pending) =
      scanEnc rest (i + 1) (some (pending ++ [c])) := by
  cases rest <;> simp [scanEnc, h1]

/-- One scan step: an ordinary character closes the long sequence. -/
theorem scanEnc_step_close (c : Char) (rest : List Char) (i : Nat)
    (pending : List Char) (h1 : ¬ c.isDigit = true) (hc : ¬ c = '#') :
    scanEnc (c :: rest) i (some pending) =
      (fun ts => if pending ++ [c] = ['\n'] then ts
                 else (pending ++ [c]) :: ts) <$>
        scanEnc rest (i + 1) none := by
  cases rest <;> simp [scanEnc, h1, hc]

/-- One scan step: a doubled marker closes the long sequence through the
second marker and reopens. -/
theorem scanEnc_step_double (rest2 : List Char) (i : Nat) (pending : List Char) :
    scanEnc ('#' :: '#' :: rest2) i (some pending) =
      (fun ts => if pending ++ ['#', '#'] = ['\n'] then ts
                 else (pending ++ ['#', '#']) :: ts) <$>
        scanEnc rest2 (i + 2) (some []) := by
  simp [scanEnc, hash_not_digit]

/-- One scan step: a single marker closes the long sequence before it and
reopens. -/
theorem scanEnc_step_single (c2 : Char) (rest2 : List Char) (i : Nat)
    (pending : List Char) (hc2 : ¬ c2 = '#') :
    scanEnc ('#' :: c2 :: rest2) i (some pending) =
      (fun ts => if pending = ['\n'] then ts else pending :: ts) <$>
        scanEnc (c2 :: rest2) (i + 1) (some []) := by
  simp [scanEnc, hash_not_digit, hc2]

/-- One scan step: a marker in Normal state opens a long sequence. -/
theorem scanEnc_step_marker (rest : List Char) (i : Nat) :
    scanEnc ('#' :: rest) i none = scanEnc rest (i + 1) (some []) := by
  cases rest <;> simp [scanEnc]

/-- One scan step: a terminator, or any character at the last index, is
skipped in Normal state. -/
theorem scanEnc_step_skip (c : Char) (rest : List Char) (i : Nat)
    (hc : ¬ c = '#') (h1 : ¬ c.isDigit = true)
    (hcond : ¬(c ≠ '\n' ∧ rest ≠ [])) :
    scanEnc (c :: rest) i none = scanEnc rest (i + 1) none := by
  cases rest with
  | nil => simp [scanEnc, hc, h1]
  | cons c2 r2 =>
    have hcn : c = '\n' := by
      by_contra hne
      exact hcond ⟨hne, by simp⟩
    simp [scanEnc, hc, h1, hcn]

/-- One scan step: a digit at the last index forms a one-character token. -/
theorem scanEnc_step_one (c : Char) (i : Nat) (hc : ¬ c = '#')
    (h1 : c.isDigit = true) :
    scanEnc [c] i none = Except.ok [[c]] := by
  have hcn : ¬ c = '\n' := by
    intro he
    rw [he] at h1
    exact absurd h1 (by decide)
  simp [scanEnc, hc, h1, hcn]

/-- One scan step: a digit with a following character forms a two-character
token. -/
theorem scanEnc_step_two (c c2 : Char) (rest2 : List Char) (i : Nat)
    (hc : ¬ c = '#') (h1 : c.isDigit = true) :
    scanEnc (c :: c2 :: rest2) i none =
      (fun ts => [c, c2] :: ts) <$> scanEnc rest2 (i + 2) none := by
  have hcn : ¬ c = '\n' := by
    intro he
    rw [he] at h1
    exact absurd h1 (by decide)
  simp [scanEnc, hc, h1, hcn]

/-- Invariant of the encoded-text scan: on success, the produced tokens
interleave into the pending slice followed by the remaining input. -/
theorem scanEnc_interleaves (cs : List Char) (i : Nat) (st : Option (List Char)) :
    ∀ toks : List (List Char), scanEnc cs i st = Except.ok toks →
      ScanInterleaves toks (statePending st ++ cs) := by
  induction cs, i, st using scanEnc.induct with
  | case1 i st =>
    intro toks h
    have h2 : Except.ok ([] : List (List Char)) = Except.ok toks := h
    injection h2 with h2
    subst h2
    exact ScanInterleaves.tail _
  | case2 c rest i pending h1 ih =>
    intro toks h
    rw [scanEnc_step_digit c rest i pending h1] at h
    have hrec := ih toks h
    simpa [statePending, List.append_assoc] using hrec
  | case3 i pending h1 =>
    intro toks h
    exact Except.noConfusion
      (show (Except.error JErr.outOfRange : Except JErr (List (List Char))) =
        Except.ok toks from h)
  | case4 i pending rest2 h1 ih =>
    intro toks h
    rw [scanEnc_step_double rest2 i pending] at h
    have hne : pending ++ ['#', '#'] ≠ ['\n'] := by
      intro heq
      have hlen := congrArg List.length heq
      simp [List.length_append] at hlen
    cases hx : scanEnc rest2 (i + 2) (some []) with
    | error e =>
      rw [hx] at h
      exact Except.noConfusion
        (show (Except.error e : Except JErr (List (List Char))) =
          Except.ok toks from h)
    | ok ts2 =>
      rw [hx] at h
      have h2 : Except.ok (if pending ++ ['#', '#'] = ['\n'] then ts2
          else (pending ++ ['#', '#']) :: ts2) = Except.ok toks := h
      rw [if_neg hne] at h2
      injection h2 with h2
      subst h2
      have hrec := ih ts2 hx
      simp only [statePending, List.nil_append] at hrec
      show ScanInterleaves _ (pending ++ '#' :: '#' :: rest2)
      have hsplit : (pending : List Char) ++ '#' :: '#' :: rest2 =
          (pending ++ ['#', '#']) ++ rest2 := by simp
      rw [hsplit]
      exact ScanInterleaves.tok _ hrec
  | case5 i pending c2 rest2 hc2 h1 ih =>
    intro toks h
    rw [scanEnc_step_single c2 rest2 i pending hc2] at h
    cases hx : scanEnc (c2 :: rest2) (i + 1) (some []) with
    | error e =>
      rw [hx] at h
      exact Except.noConfusion
        (show (Except.error e : Except JErr (List (List Char))) =
          Except.ok toks from h)
    | ok ts2 =>
      rw [hx] at h
      have h2 : Except.ok (if pending = ['\n'] then ts2 else pending :: ts2) =
          Except.ok toks := h
      have hrec := ih ts2 hx
      simp only [statePending, List.nil_append] at hrec
      by_cases hp : pending = ['\n']
      · rw [if_pos hp] at h2
        injection h2 with h2
        subst h2
        subst hp
        exact ScanInterleaves.gap '\n' (Or.inr rfl)
          (ScanInterleaves.gap '#' (Or.inl rfl) hrec)
      · rw [if_neg hp] at h2
        injection h2 with h2
        subst h2
        show ScanInterleaves (pending :: ts2) (pending ++ '#' :: c2 :: rest2)
        exact ScanInterleaves.tok _
          (ScanInterleaves.gap '#' (Or.inl rfl) hrec)
  | case6 c rest i pending h1 hc ih =>
    intro toks h
    rw [scanEnc_step_close c rest i pending h1 hc] at h
    cases hx : scanEnc rest (i + 1) none with
    | error e =>
      rw [hx] at h
      exact Except.noConfusion
        (show (Except.error e : Except JErr (List (List Char))) =
          Except.ok toks from h)
    | ok ts2 =>
      rw [hx] at h
      have h2 : Except.ok (if pending ++ [c] = ['\n'] then ts2
          else (pending ++ [c]) :: ts2) = Except.ok toks := h
      have hrec := ih ts2 hx
      simp only [statePending, List.nil_append] at hrec
      by_cases hp : pending ++ [c] = ['\n']
      · rw [if_pos hp] at h2
        injection h2 with h2
        subst h2
        have hpnil : pending = [] := by
          have hlen := congrArg List.length hp
          simp [List.length_append] at hlen
          exact hlen
        have hcn : c = '\n' := by
          rw [hpnil] at hp
          simpa using hp
        subst hpnil
        subst hcn
        exact ScanInterleaves.gap '\n' (Or.inr rfl) hrec
      · rw [if_neg hp] at h2
        injection h2 with h2
        subst h2
        show ScanInterleaves ((pending ++ [c]) :: ts2) (pending ++ c :: rest)
        have hsplit : (pending : List Char) ++ c :: rest =
            (pending ++ [c]) ++ rest := by simp
        rw [hsplit]
        exact ScanInterleaves.tok _ hrec
  | case7 rest i ih =>
    intro toks h
    rw [scanEnc_step_marker rest i] at h
    have hrec := ih toks h
    simp only [statePending, List.nil_append] at hrec ⊢
    exact ScanInterleaves.gap '#' (Or.inl rfl) hrec
  | case8 c rest i hc h1 hcond =>
    intro toks h
    cases rest with
    | nil => exact absurd rfl hcond.2
    | cons c2 r2 =>
      rw [show scanEnc (c :: c2 :: r2) i none =
          Except.error (JErr.invalidArg i) by
        simp [scanEnc, hc, h1, hcond]] at h
      exact Except.noConfusion h
  | case9 c rest i hc h1 hcond ih =>
    intro toks h
    rw [scanEnc_step_skip c rest i hc h1 hcond] at h
    simp only [statePending, List.nil_append]
    by_cases hcn : c = '\n'
    · have hrec := ih toks h
      simp only [statePending, List.nil_append] at hrec
      subst hcn
      exact ScanInterleaves.gap '\n' (Or.inr rfl) hrec
    · have hrnil : rest = [] := by
        by_contra hrne
        exact hcond ⟨hcn, hrne⟩
      subst hrnil
      have h2 : Except.ok ([] : List (List Char)) = Except.ok toks := h
      injection h2 with h2
      subst h2
      exact ScanInterleaves.tail _
  | case10 c rest i hc h1 htake ih =>
    intro toks h
    exfalso
    have hd : c.isDigit = true := not_not.mp h1
    have hcn : c = '\n' := by
      have := congrArg List.head? htake
      simpa using this
    rw [hcn] at hd
    exact absurd hd (by decide)
  | case11 c i hc h1 htake ih =>
    intro toks h
    have hd : c.isDigit = true := not_not.mp h1
    rw [scanEnc_step_one c i hc hd] at h
    injection h with h
    subst h
    simp only [statePending, List.nil_append]
    have : ([c] : List Char) = [c] ++ [] := by simp
    rw [this]
    exact ScanInterleaves.tok [c] (ScanInterleaves.tail [])
  | case12 c i hc h1 c2 rest2 htake ih =>
    intro toks h
    have hd : c.isDigit = true := not_not.mp h1
    rw [scanEnc_step_two c c2 rest2 i hc hd] at h
    cases hx : scanEnc rest2 (i + 2) none with
    | error e =>
      rw [hx] at h
      exact Except.noConfusion
        (show (Except.error e : Except JErr (List (List Char))) =
          Except.ok toks from h)
    | ok ts2 =>
      rw [hx] at h
      have h2 : Except.ok ([c, c2] :: ts2) = Except.ok toks := h
      injection h2 with h2
      subst h2
      have hrec := ih ts2 hx
      simp only [statePending, List.nil_append] at hrec ⊢
      exact ScanInterleaves.tok [c, c2] hrec

/-- C3 amended: for every buffer the scanner accepts, the returned tokens are
in-order, non-overlapping substrings of the scanned input; the characters
between and before them are only the consumed escape markers and discarded
line terminators, and content after the final token (an unclosed trailing
long sequence, a stray final character, trailing markers or terminators) may
be absent from the concatenation.  Exact end-to-end reconstruction does not
hold: see the counterexample. -/
theorem tokenizeEncoded_interleaves (s : List Char) (toks : List (List Char))
    (h : tokenizeEncoded s = Except.ok toks) : ScanInterleaves toks s := by
  have hrec := scanEnc_interleaves s 0 none toks h
  simpa [statePending] using hrec

/-- Witness for the amended C3 at a concrete input: the single token produced
from the well-formed buffer #10a sits inside it after the marker gap. -/
theorem tokenizeEncoded_interleaves_witness :
    ScanInterleaves [['1', '0', 'a']] ['#', '1', '0', 'a'] :=
  tokenizeEncoded_interleaves ['#', '1', '0', 'a'] [['1', '0', 'a']] (by decide)
